import Mathlib

/-!
Shallow embedding of `lint/persist.py` from SublimeLinter3.

The module holds the plugin's persistent shared state: a `Settings` object
with a diff-driven reconciliation pass (`Settings.on_update`), a background
lint scheduler (`Daemon.loop`), the process-wide per-view mappings purged by
`view_did_close`, and the `get_syntax` helper built on `SYNTAX_RE`.

Python dictionaries are modelled as association lists with unique-key
lookup (`dictGet`), overwrite-or-insert (`dictSet`) and deletion
(`dictDel`).  Monotonic time (`time.monotonic()`) is modelled by rational
clock values supplied to each worker iteration.  Side effects (console
output via `printf`, `time.sleep`, the lint callback, cache clearing,
`Linter.reload`, ...) are reified as effect lists returned next to the
updated state.
-/

/-- Python `d.get(k)` on a dictionary, as lookup in an association list. -/
def dictGet {κ α : Type _} [DecidableEq κ] (k : κ) : List (κ × α) → Option α
  | [] => none
  | p :: ps => if p.1 = k then some p.2 else dictGet k ps

/-- Python `d[k] = v`: overwrite the entry for `k` if present, insert it
otherwise. -/
def dictSet {κ α : Type _} [DecidableEq κ] (k : κ) (v : α) :
    List (κ × α) → List (κ × α)
  | [] => [(k, v)]
  | p :: ps => if p.1 = k then (k, v) :: ps else p :: dictSet k v ps

/-- Python `del d[k]` (total: deleting an absent key leaves the dictionary
unchanged; the source guards every `del` with a membership test). -/
def dictDel {κ α : Type _} [DecidableEq κ] (k : κ) : List (κ × α) → List (κ × α)
  | [] => []
  | p :: ps => if p.1 = k then dictDel k ps else p :: dictDel k ps

theorem dictGet_dictDel_self {κ α : Type _} [DecidableEq κ] (k : κ)
    (l : List (κ × α)) : dictGet k (dictDel k l) = none := by
  induction l with
  | nil => rfl
  | cons p ps ih =>
    by_cases h : p.1 = k
    · simp [dictDel, h, ih]
    · simp [dictDel, dictGet, h, ih]

theorem dictGet_dictDel_ne {κ α : Type _} [DecidableEq κ] {k k0 : κ}
    (h : k0 ≠ k) (l : List (κ × α)) :
    dictGet k0 (dictDel k l) = dictGet k0 l := by
  induction l with
  | nil => rfl
  | cons p ps ih =>
    rw [dictDel]
    by_cases hp : p.1 = k
    · rw [if_pos hp, ih, dictGet, if_neg]
      rw [hp]
      exact fun hh => h hh.symm
    · rw [if_neg hp, dictGet, dictGet]
      by_cases hp0 : p.1 = k0
      · rw [if_pos hp0, if_pos hp0]
      · rw [if_neg hp0, if_neg hp0, ih]

theorem dictDel_of_absent {κ α : Type _} [DecidableEq κ] {k : κ}
    {l : List (κ × α)} (h : dictGet k l = none) : dictDel k l = l := by
  induction l with
  | nil => rfl
  | cons p ps ih =>
    by_cases hp : p.1 = k
    · simp [dictGet, hp] at h
    · simp [dictGet, hp] at h
      simp [dictDel, hp, ih h]

theorem dictGet_dictSet_cases {κ α : Type _} [DecidableEq κ] {k k1 : κ}
    {v x : α} {l : List (κ × α)}
    (h : dictGet k (dictSet k1 v l) = some x) :
    (k = k1 ∧ x = v) ∨ dictGet k l = some x := by
  induction l with
  | nil =>
    rw [dictSet, dictGet] at h
    by_cases hk : k1 = k
    · rw [if_pos hk] at h
      exact Or.inl ⟨hk.symm, (Option.some.injEq _ _ ▸ h).symm⟩
    · rw [if_neg hk, dictGet] at h
      exact absurd h (by simp)
  | cons p ps ih =>
    rw [dictSet] at h
    by_cases hp : p.1 = k1
    · rw [if_pos hp, dictGet] at h
      by_cases hk : k1 = k
      · rw [if_pos hk] at h
        exact Or.inl ⟨hk.symm, (Option.some.injEq _ _ ▸ h).symm⟩
      · rw [if_neg hk] at h
        right
        rw [dictGet, if_neg (by rw [hp]; exact hk)]
        exact h
    · rw [if_neg hp, dictGet] at h
      by_cases hpk : p.1 = k
      · rw [if_pos hpk] at h
        right
        rw [dictGet, if_pos hpk]
        exact h
      · rw [if_neg hpk] at h
        rcases ih h with h1 | h2
        · exact Or.inl h1
        · right
          rw [dictGet, if_neg hpk]
          exact h2

theorem dictGet_dictSet_self {κ α : Type _} [DecidableEq κ] (k : κ) (v : α)
    (l : List (κ × α)) : dictGet k (dictSet k v l) = some v := by
  induction l with
  | nil => simp [dictSet, dictGet]
  | cons p ps ih =>
    by_cases hp : p.1 = k
    · simp [dictSet, dictGet, hp]
    · simp [dictSet, dictGet, hp, ih]

theorem dictGet_mem {κ α : Type _} [DecidableEq κ] {k : κ} {v : α}
    {l : List (κ × α)} (h : dictGet k l = some v) : (k, v) ∈ l := by
  induction l with
  | nil => simp [dictGet] at h
  | cons p ps ih =>
    by_cases hp : p.1 = k
    · simp [dictGet, hp] at h
      have hpv : p = (k, v) := by
        cases p
        simp_all
      rw [hpv]
      exact List.mem_cons_self _ _
    · simp [dictGet, hp] at h
      exact List.mem_cons_of_mem _ (ih h)

/-!
## Settings

`class Settings` from `persist.py`.  A settings dictionary maps option
names to heterogeneous values (`SVal`): booleans (`@disable`, `debug`),
numbers (`delay`), strings (`gutter_theme`), lists of path strings
(`paths`), and nested dictionaries (`python_paths`, `syntax_map`,
`linters`).
-/

/-- Settings values stored in `SublimeLinter.sublime-settings`. -/
inductive SVal where
  | bool (b : Bool)
  | num (q : ℚ)
  | str (s : String)
  | strlist (l : List String)
  | dict (m : List (String × SVal))

/-- Python `==` on settings values (structural equality). -/
def SVal.beq : SVal → SVal → Bool
  | .bool a, .bool b => a == b
  | .num a, .num b => a == b
  | .str a, .str b => a == b
  | .strlist a, .strlist b => a == b
  | .dict a, .dict b =>
      match a, b with
      | [], [] => true
      | (k1, v1) :: r1, (k2, v2) :: r2 =>
          k1 == k2 && SVal.beq v1 v2 && SVal.beq (.dict r1) (.dict r2)
      | _, _ => false
  | _, _ => false

/-- Python `a != b` where both sides are `d.get(key)` results (`None` when
absent): `None != None` is `False`, `None != v` is `True`, and two present
values compare structurally. -/
def optionNe (a b : Option SVal) : Bool :=
  match a, b with
  | none, none => false
  | some x, some y => !(SVal.beq x y)
  | _, _ => true

/-- Effects performed by the settings reconciliation pass, in the order the
source performs them. -/
inductive SettingsEffect where
  | clearCaches
  | addPythonPath (p : String)
  | clearAllLinters
  | reassignAllViews
  | updateGutterMarks
  | linterReload
  | onUpdateCallback (need_relint : Bool)
deriving DecidableEq

/-- State of the `Settings` object: the live settings dictionary, the
`previous_settings` snapshot, and whether an `on_update_call` callback has
been registered. -/
structure SettingsState where
  settings : List (String × SVal)
  previous_settings : List (String × SVal)
  has_on_update_callback : Bool

namespace Settings

/-- Method `Settings.get(setting, default)`. -/
def get (st : SettingsState) (k : String) (default : SVal) : SVal :=
  (dictGet k st.settings).getD default

/-- Method `Settings.copy()`: `self.previous_settings = deepcopy(self.settings)`.
Values are immutable in the model, so a deep copy is the value itself. -/
def copy (st : SettingsState) : SettingsState :=
  { st with previous_settings := st.settings }

/-- Method `Settings.set(setting, value)`: `self.copy()` first, then
`self.settings[setting] = value`. -/
def set (st : SettingsState) (k : String) (v : SVal) : SettingsState :=
  let st1 := copy st
  { st1 with settings := dictSet k v st1.settings }

/-- The `sys.path` appending loop inside `on_update`: for each configured
path, append it unless already present (the growing path list is threaded
through, as `sys.path.append` mutates the list being tested). -/
def pythonPathEffects (sysPath : List String) : List String → List SettingsEffect
  | [] => []
  | p :: rest =>
      if p ∈ sysPath then pythonPathEffects sysPath rest
      else SettingsEffect.addPythonPath p :: pythonPathEffects (sysPath ++ [p]) rest

/-- Expression `self.settings.get('python_paths', \x7b\x7d).get(sublime.platform(), [])`,
extracting the per-platform path list. -/
def platformPaths (cur : List (String × SVal)) (platform : String) : List String :=
  match (dictGet "python_paths" cur).getD (SVal.dict []) with
  | SVal.dict m =>
      match (dictGet platform m).getD (SVal.strlist []) with
      | SVal.strlist l => l
      | _ => []
  | _ => []

/-- Method `Settings.on_update()`: replace `self.settings` with the externally
merged configuration `ext` (`util.merge_user_settings`), diff each
recognized key against `previous_settings`, and emit the reactions in
source order.  Note that the source never updates `previous_settings`
here. -/
def on_update (platform : String) (sysPath : List String)
    (ext : List (String × SVal)) (st : SettingsState) :
    SettingsState × List SettingsEffect :=
  let prev := st.previous_settings
  let cur := ext
  let nr0 := !(SVal.beq ((dictGet "@disable" prev).getD (SVal.bool false))
                        ((dictGet "@disable" cur).getD (SVal.bool false)))
  let pathsChanged := optionNe (dictGet "paths" prev) (dictGet "paths" cur)
  let nr1 := if pathsChanged then true else nr0
  let e1 := if pathsChanged then [SettingsEffect.clearCaches] else []
  let ppChanged := optionNe (dictGet "python_paths" prev) (dictGet "python_paths" cur)
  let nr2 := if ppChanged then true else nr1
  let e2 := if ppChanged then pythonPathEffects sysPath (platformPaths cur platform) else []
  let smChanged := optionNe (dictGet "syntax_map" prev) (dictGet "syntax_map" cur)
  let nr3 := if smChanged then true else nr2
  let e3 := if smChanged then
      [SettingsEffect.clearAllLinters, SettingsEffect.reassignAllViews] else []
  let lintersChanged := optionNe (dictGet "linters" prev) (dictGet "linters" cur)
  let nr4 := if !nr3 && lintersChanged then true else nr3
  let gtChanged := optionNe (dictGet "gutter_theme" prev) (dictGet "gutter_theme" cur)
  let e4 := if gtChanged then [SettingsEffect.updateGutterMarks] else []
  let e5 := if nr4 then [SettingsEffect.linterReload] else []
  let e6 := if st.has_on_update_callback then [SettingsEffect.onUpdateCallback nr4] else []
  ({ st with settings := cur }, e1 ++ e2 ++ e3 ++ e4 ++ e5 ++ e6)

end Settings

/-- C2: `Settings.set(key, value)` first snapshots `previous_settings` to a
copy of the settings as they were immediately before the call, and only
then stores `value` under `key`; after the call `previous_settings` equals
the full pre-call settings mapping (every key of it reads unchanged), not a
partially updated one. -/
theorem settings_set_snapshots_before_mutate (st : SettingsState) (k : String)
    (v : SVal) :
    (Settings.set st k v).previous_settings = st.settings ∧
    (Settings.set st k v).settings = dictSet k v st.settings ∧
    ∀ k0, dictGet k0 (Settings.set st k v).previous_settings = dictGet k0 st.settings := by
  refine ⟨rfl, rfl, fun k0 => rfl⟩

/-- C1 counterexample: the claim says a second `on_update` pass with the
same external configuration triggers no second relint.  With a fresh
`Settings` object (empty `previous_settings`, a registered callback) and
the configuration `\x7b'@disable': True\x7d`, the second pass again issues
`Linter.reload` and again passes `True` to the callback, because
`on_update` never updates `previous_settings`. -/
theorem on_update_second_pass_relints_cex :
    (Settings.on_update "linux" []
      [("@disable", SVal.bool true)]
      (Settings.on_update "linux" [] [("@disable", SVal.bool true)]
        ⟨[], [], true⟩).1).2 =
    [SettingsEffect.linterReload, SettingsEffect.onUpdateCallback true] := by
  simp [Settings.on_update, SVal.beq, optionNe, dictGet]

/-- C1 amended: running `Settings.on_update` twice in a row with the same
external configuration (and no intervening `Settings.set`) makes the second
pass repeat the first pass exactly — same resulting state and the same
effect list, so a relint is signalled on the second pass precisely when it
was signalled on the first — because `on_update` leaves
`previous_settings` unchanged; `previous` does not equal `current` after
the first pass unless they were already equal. -/
theorem on_update_second_pass_repeats_first (platform : String)
    (sysPath : List String) (ext : List (String × SVal)) (st : SettingsState) :
    Settings.on_update platform sysPath ext
      (Settings.on_update platform sysPath ext st).1 =
    Settings.on_update platform sysPath ext st ∧
    (Settings.on_update platform sysPath ext st).1.previous_settings =
      st.previous_settings := by
  obtain ⟨s, p, c⟩ := st
  exact ⟨rfl, rfl⟩

/-!
## Daemon

`class Daemon` from `persist.py`: the background worker `Daemon.loop`.
One iteration of the `while True` body is `Daemon.loopIter`; dequeuing
`Empty` (the `MIN_DELAY` timeout) is modelled by the item `none`, and the
current `time.monotonic()` reading of the iteration is an explicit clock
argument.  The loop-local `last_runs` pending table is
`local_last_runs`; the shared `self.last_runs` registry is
`shared_last_runs`.  The lint callback may raise, so it returns
`Except String Unit`; an exception anywhere in the body carries the
partially updated state and the effects emitted so far, and is caught by
the `except` clause of the iteration.
-/

/-- Items on the daemon queue: a `(view_id, timestamp, delay)` tuple, an
`int`/`float` sleep duration, a string, or any other object (carrying its
printed representation). -/
inductive QItem where
  | tup (view_id : Nat) (timestamp delay : ℚ)
  | num (secs : ℚ)
  | str (s : String)
  | unknown (repr : String)
deriving DecidableEq

/-- Observable side effects of one worker iteration: invoking the lint
callback, `time.sleep`, and a `printf` console line (prefixed with the
plugin name by `printf` itself). -/
inductive Effect where
  | lint (view_id : Nat) (timestamp : ℚ)
  | sleep (secs : ℚ)
  | printf (msg : String)
deriving DecidableEq

/-- State owned by the worker: the loop-local `last_runs` pending table
(`view_id -> (timestamp, delay)`) and the shared `self.last_runs` registry
(`view_id -> monotonic time`). -/
structure DaemonState where
  local_last_runs : List (Nat × (ℚ × ℚ))
  shared_last_runs : List (Nat × ℚ)
deriving DecidableEq

namespace Daemon

/-- The `'-' * 20` separator line. -/
def dashes : String := String.mk (List.replicate 20 '-')

/-- Constant `MIN_DELAY`: the queue timeout and the minimal lint delay. -/
def MIN_DELAY : ℚ := 1 / 10

/-- The `except` clause's output: the four `printf` lines logging the
plugin-prefixed message and the full trace. -/
def errTrace (e : String) : List Effect :=
  [Effect.printf "error in SublimeLinter daemon:",
   Effect.printf dashes,
   Effect.printf e,
   Effect.printf dashes]

/-- The `except Empty` branch: iterate over a snapshot
(`last_runs.copy().items()`) of the pending table; every entry whose
deadline has passed (`now > timestamp + delay`) is written to the shared
registry at the current monotonic time, removed from the live pending
table, and linted.  An exception from the callback aborts the scan,
carrying the state and effects so far. -/
def timeoutScan (cb : Nat → ℚ → Except String Unit) (now : ℚ) :
    List (Nat × (ℚ × ℚ)) → DaemonState →
    Except (String × DaemonState × List Effect) (DaemonState × List Effect)
  | [], st => Except.ok (st, [])
  | (vid, (ts, d)) :: rest, st =>
      if now > ts + d then
        let st1 : DaemonState :=
          { local_last_runs := dictDel vid st.local_last_runs,
            shared_last_runs := dictSet vid now st.shared_last_runs }
        match cb vid ts with
        | Except.error e => Except.error (e, st1, [Effect.lint vid ts])
        | Except.ok _ =>
            match timeoutScan cb now rest st1 with
            | Except.ok (st2, effs) => Except.ok (st2, Effect.lint vid ts :: effs)
            | Except.error (e, st2, effs) =>
                Except.error (e, st2, Effect.lint vid ts :: effs)
      else timeoutScan cb now rest st

/-- The `try` body of one iteration of `Daemon.loop`, dispatching on the
dequeued item exactly as the source's `isinstance` chain does; `none`
stands for the `Empty` timeout. -/
def processItem (cb : Nat → ℚ → Except String Unit) (now : ℚ)
    (st : DaemonState) :
    Option QItem →
    Except (String × DaemonState × List Effect) (DaemonState × List Effect)
  | none => timeoutScan cb now st.local_last_runs st
  | some (QItem.tup vid ts d) =>
      match dictGet vid st.shared_last_runs with
      | some t0 =>
          if ts < t0 then Except.ok (st, [])
          else Except.ok
            ({ st with local_last_runs := dictSet vid (ts, d) st.local_last_runs }, [])
      | none => Except.ok
            ({ st with local_last_runs := dictSet vid (ts, d) st.local_last_runs }, [])
  | some (QItem.num secs) => Except.ok (st, [Effect.sleep secs])
  | some (QItem.str s) =>
      if s = "reload" then
        Except.ok (⟨[], []⟩, [Effect.printf "daemon detected a reload"])
      else Except.ok (st, [])
  | some (QItem.unknown r) =>
      Except.ok (st, [Effect.printf ("unknown message sent to daemon: " ++ r)])

/-- One full iteration of `Daemon.loop`: the `try` body wrapped in the
bare `except` that logs the trace and continues. -/
def loopIter (cb : Nat → ℚ → Except String Unit) (now : ℚ) (st : DaemonState)
    (item : Option QItem) : DaemonState × List Effect :=
  match processItem cb now st item with
  | Except.ok (st1, effs) => (st1, effs)
  | Except.error (e, st1, effs) => (st1, effs ++ errTrace e)

/-- A run of consecutive worker iterations, each given its monotonic clock
reading and dequeued item; effects are concatenated in order. -/
def runSteps (cb : Nat → ℚ → Except String Unit) :
    List (ℚ × Option QItem) → DaemonState → DaemonState × List Effect
  | [], st => (st, [])
  | (now, item) :: rest, st =>
      let r := loopIter cb now st item
      let r2 := runSteps cb rest r.1
      (r2.1, r.2 ++ r2.2)

end Daemon

theorem dictGet_dictSet_ne {κ α : Type _} [DecidableEq κ] {k k1 : κ}
    (h : k ≠ k1) (v : α) (l : List (κ × α)) :
    dictGet k (dictSet k1 v l) = dictGet k l := by
  have hne : ¬ (k1 = k) := fun hh => h hh.symm
  induction l with
  | nil => simp [dictSet, dictGet, hne]
  | cons p ps ih =>
    by_cases hp : p.1 = k1
    · have hpk : ¬ p.1 = k := by
        rw [hp]
        exact hne
      simp [dictSet, dictGet, hp, hpk, hne]
    · by_cases hpk : p.1 = k
      · simp [dictSet, dictGet, hp, hpk, h]
      · simp [dictSet, dictGet, hp, hpk, ih]

namespace Daemon

/-- State reached by the `try` body, whether it returned or raised. -/
def exState :
    Except (String × DaemonState × List Effect) (DaemonState × List Effect) →
    DaemonState
  | Except.ok (st, _) => st
  | Except.error (_, st, _) => st

theorem loopIter_fst (cb : Nat → ℚ → Except String Unit) (now : ℚ)
    (st : DaemonState) (item : Option QItem) :
    (loopIter cb now st item).1 = exState (processItem cb now st item) := by
  unfold loopIter
  cases hp : processItem cb now st item with
  | ok p =>
    obtain ⟨st1, effs⟩ := p
    simp [exState]
  | error p =>
    obtain ⟨e, st1, effs⟩ := p
    simp [exState]

theorem timeoutScan_shared_preserves (cb : Nat → ℚ → Except String Unit)
    (now : ℚ) (vid : Nat) :
    ∀ (entries : List (Nat × (ℚ × ℚ))) (st : DaemonState),
      dictGet vid st.shared_last_runs = some now →
      dictGet vid (exState (timeoutScan cb now entries st)).shared_last_runs = some now := by
  intro entries
  induction entries with
  | nil =>
    intro st h
    simpa [timeoutScan, exState] using h
  | cons p rest ih =>
    obtain ⟨v1, ts1, d1⟩ := p
    intro st h
    rw [timeoutScan]
    by_cases hfire : now > ts1 + d1
    · rw [if_pos hfire]
      have hst1 : dictGet vid (dictSet v1 now st.shared_last_runs) = some now := by
        by_cases hv : vid = v1
        · rw [hv]
          exact dictGet_dictSet_self v1 now st.shared_last_runs
        · rw [dictGet_dictSet_ne hv]
          exact h
      cases hcb : cb v1 ts1 with
      | error e => simpa [exState] using hst1
      | ok u =>
        cases hrec : timeoutScan cb now rest
            { local_last_runs := dictDel v1 st.local_last_runs,
              shared_last_runs := dictSet v1 now st.shared_last_runs } with
        | ok p2 =>
          obtain ⟨st2, effs⟩ := p2
          have := ih
              { local_last_runs := dictDel v1 st.local_last_runs,
                shared_last_runs := dictSet v1 now st.shared_last_runs } hst1
          rw [hrec] at this
          simpa [exState, hrec] using this
        | error p2 =>
          obtain ⟨e, st2, effs⟩ := p2
          have := ih
              { local_last_runs := dictDel v1 st.local_last_runs,
                shared_last_runs := dictSet v1 now st.shared_last_runs } hst1
          rw [hrec] at this
          simpa [exState, hrec] using this
    · rw [if_neg hfire]
      exact ih st h

theorem timeoutScan_fires_entry (cb : Nat → ℚ → Except String Unit)
    (now : ℚ) (vid : Nat) (ts d : ℚ)
    (hcb : ∀ v t, cb v t = Except.ok ()) :
    ∀ (entries : List (Nat × (ℚ × ℚ))) (st : DaemonState),
      dictGet vid entries = some (ts, d) → now > ts + d →
      dictGet vid (exState (timeoutScan cb now entries st)).shared_last_runs = some now := by
  intro entries
  induction entries with
  | nil =>
    intro st h _
    simp [dictGet] at h
  | cons p rest ih =>
    obtain ⟨v1, ts1, d1⟩ := p
    intro st h hnow
    rw [timeoutScan]
    by_cases hv : v1 = vid
    · subst hv
      have hval : (ts1, d1) = (ts, d) := by
        simpa [dictGet] using h
      have hts : ts1 = ts := congrArg Prod.fst hval
      have hd : d1 = d := congrArg Prod.snd hval
      subst hts
      subst hd
      rw [if_pos hnow]
      have hst1 : dictGet v1 (dictSet v1 now st.shared_last_runs) = some now :=
        dictGet_dictSet_self v1 now st.shared_last_runs
      cases hcb2 : cb v1 ts1 with
      | error e =>
        rw [hcb v1 ts1] at hcb2
        exact absurd hcb2 (by simp)
      | ok u =>
        cases hrec : timeoutScan cb now rest
            { local_last_runs := dictDel v1 st.local_last_runs,
              shared_last_runs := dictSet v1 now st.shared_last_runs } with
        | ok p2 =>
          obtain ⟨st2, effs⟩ := p2
          have := timeoutScan_shared_preserves cb now v1 rest
              { local_last_runs := dictDel v1 st.local_last_runs,
                shared_last_runs := dictSet v1 now st.shared_last_runs } hst1
          rw [hrec] at this
          simpa [exState, hrec] using this
        | error p2 =>
          obtain ⟨e, st2, effs⟩ := p2
          have := timeoutScan_shared_preserves cb now v1 rest
              { local_last_runs := dictDel v1 st.local_last_runs,
                shared_last_runs := dictSet v1 now st.shared_last_runs } hst1
          rw [hrec] at this
          simpa [exState, hrec] using this
    · have hrest : dictGet vid rest = some (ts, d) := by
        simpa [dictGet, hv] using h
      by_cases hfire : now > ts1 + d1
      · rw [if_pos hfire]
        cases hcb2 : cb v1 ts1 with
        | error e =>
          rw [hcb v1 ts1] at hcb2
          exact absurd hcb2 (by simp)
        | ok u =>
          cases hrec : timeoutScan cb now rest
              { local_last_runs := dictDel v1 st.local_last_runs,
                shared_last_runs := dictSet v1 now st.shared_last_runs } with
          | ok p2 =>
            obtain ⟨st2, effs⟩ := p2
            have := ih
                { local_last_runs := dictDel v1 st.local_last_runs,
                  shared_last_runs := dictSet v1 now st.shared_last_runs } hrest hnow
            rw [hrec] at this
            simpa [exState, hrec] using this
          | error p2 =>
            obtain ⟨e, st2, effs⟩ := p2
            have := ih
                { local_last_runs := dictDel v1 st.local_last_runs,
                  shared_last_runs := dictSet v1 now st.shared_last_runs } hrest hnow
            rw [hrec] at this
            simpa [exState, hrec] using this
      · rw [if_neg hfire]
        exact ih st hrest hnow

end Daemon

/-- C3: when the worker dequeues a `(view_id, timestamp, delay)` tuple, it
emits no effect; the request is discarded (state left unchanged) if and
only if the shared last-run registry holds an entry for that view whose
timestamp is strictly newer than the request's; otherwise the local
pending-table entry for the view is overwritten or inserted with
`(timestamp, delay)`, resetting the wait for that view. -/
theorem daemon_stale_request_rejection (cb : Nat → ℚ → Except String Unit)
    (now : ℚ) (st : DaemonState) (vid : Nat) (ts d : ℚ) :
    (Daemon.loopIter cb now st (some (QItem.tup vid ts d))).2 = [] ∧
    ((∃ t0, dictGet vid st.shared_last_runs = some t0 ∧ ts < t0) →
      Daemon.loopIter cb now st (some (QItem.tup vid ts d)) = (st, [])) ∧
    ((∀ t0, dictGet vid st.shared_last_runs = some t0 → ¬ ts < t0) →
      Daemon.loopIter cb now st (some (QItem.tup vid ts d)) =
        ({ st with local_last_runs := dictSet vid (ts, d) st.local_last_runs }, [])) := by
  refine ⟨?_, ?_, ?_⟩
  · simp only [Daemon.loopIter, Daemon.processItem]
    cases h : dictGet vid st.shared_last_runs with
    | none => simp
    | some t0 =>
      by_cases hlt : ts < t0
      · simp [hlt]
      · simp [hlt]
  · rintro ⟨t0, h, hlt⟩
    simp [Daemon.loopIter, Daemon.processItem, h, hlt]
  · intro hno
    simp only [Daemon.loopIter, Daemon.processItem]
    cases h : dictGet vid st.shared_last_runs with
    | none => simp
    | some t0 => simp [hno t0 h]

/-- Witness for C3 at concrete inputs: a request with timestamp `3` is
discarded when the registry holds `5` for its view, and accepted into the
pending table when the registry holds `2`. -/
theorem daemon_stale_request_rejection_witness :
    Daemon.loopIter (fun _ _ => Except.ok ()) 0 ⟨[], [(1, 5)]⟩
        (some (QItem.tup 1 3 1)) = (⟨[], [(1, 5)]⟩, []) ∧
    Daemon.loopIter (fun _ _ => Except.ok ()) 0 ⟨[], [(1, 2)]⟩
        (some (QItem.tup 1 3 1)) = (⟨[(1, (3, 1))], [(1, 2)]⟩, []) := by
  constructor
  · exact (daemon_stale_request_rejection (fun _ _ => Except.ok ()) 0
      ⟨[], [(1, 5)]⟩ 1 3 1).2.1 ⟨5, rfl, by norm_num⟩
  · have := (daemon_stale_request_rejection (fun _ _ => Except.ok ()) 0
      ⟨[], [(1, 2)]⟩ 1 3 1).2.2 (by
        intro t0 h
        simp [dictGet] at h
        rw [← h]
        norm_num)
    simpa [dictSet] using this

/-- C4 counterexample: a pending request for view `1` enqueued at
timestamp `0` with delay `0` is fired by the idle-timeout scan at monotonic
time `1`; the shared registry then holds `1` (the fire-time clock reading,
`time.monotonic()` at the moment of firing), not the request's enqueue
timestamp `0` as the claim states. -/
theorem scan_records_enqueue_timestamp_cex :
    dictGet 1 (Daemon.loopIter (fun _ _ => Except.ok ()) 1 ⟨[(1, (0, 0))], []⟩
        none).1.shared_last_runs = some 1 ∧ (1 : ℚ) ≠ 0 := by
  constructor
  · norm_num [Daemon.loopIter, Daemon.processItem, Daemon.timeoutScan,
      dictGet, dictSet, dictDel]
  · norm_num

/-- C4 amended: whenever the idle-timeout scan fires a pending request
`(timestamp, delay)` for a view at monotonic time `now` (so
`now > timestamp + delay`), the value recorded in the shared last-run
registry for that view is `now`, the fire-time clock reading — strictly
greater than the request's enqueue timestamp plus its delay — not the
enqueue timestamp itself. -/
theorem scan_records_fire_time (cb : Nat → ℚ → Except String Unit) (now : ℚ)
    (st : DaemonState) (vid : Nat) (ts d : ℚ)
    (hcb : ∀ v t, cb v t = Except.ok ())
    (hpend : dictGet vid st.local_last_runs = some (ts, d))
    (hfire : now > ts + d) :
    dictGet vid (Daemon.loopIter cb now st none).1.shared_last_runs = some now ∧
    now > ts + d := by
  refine ⟨?_, hfire⟩
  rw [Daemon.loopIter_fst]
  exact Daemon.timeoutScan_fires_entry cb now vid ts d hcb st.local_last_runs st hpend hfire

/-- Witness for the amended C4: the scan at time `1` over the pending entry
`(1, (0, 1/10))` records `1` in the registry. -/
theorem scan_records_fire_time_witness :
    dictGet 1 (Daemon.loopIter (fun _ _ => Except.ok ()) 1 ⟨[(1, (0, 1/10))], []⟩
        none).1.shared_last_runs = some 1 ∧ (1 : ℚ) > 0 + 1/10 :=
  scan_records_fire_time (fun _ _ => Except.ok ()) 1 ⟨[(1, (0, 1/10))], []⟩ 1 0 (1/10)
    (fun _ _ => rfl) rfl (by norm_num)

/-- C6 counterexample: the claim demands a logged warning for every queue
item that is not a tuple, not a number and not the `reload` control
message, in particular for every unrecognized string.  But an unrecognized
string such as `"lintall"` takes the `isinstance(item, str)` branch, which
does nothing when the string is not `reload`: no warning is printed and no
effect at all is produced. -/
theorem daemon_unknown_message_warning_cex :
    Daemon.loopIter (fun _ _ => Except.ok ()) 0 ⟨[], []⟩
        (some (QItem.str "lintall")) = (⟨[], []⟩, []) := by
  rfl

/-- C6 amended: a queue item that is not a tuple, not a number and not a
string is logged with an unknown-message warning and otherwise ignored
(state unchanged, no other effect); a string other than the `reload`
control message is silently ignored with no warning and no other effect. -/
theorem daemon_unknown_and_plain_string_messages
    (cb : Nat → ℚ → Except String Unit) (now : ℚ) (st : DaemonState)
    (r s : String) :
    Daemon.loopIter cb now st (some (QItem.unknown r)) =
      (st, [Effect.printf ("unknown message sent to daemon: " ++ r)]) ∧
    (s ≠ "reload" →
      Daemon.loopIter cb now st (some (QItem.str s)) = (st, [])) := by
  constructor
  · rfl
  · intro h
    simp [Daemon.loopIter, Daemon.processItem, h]

/-- Witness for the amended C6 at concrete inputs. -/
theorem daemon_unknown_and_plain_string_messages_witness :
    Daemon.loopIter (fun _ _ => Except.ok ()) 0 ⟨[], []⟩
        (some (QItem.unknown "obj")) =
      (⟨[], []⟩, [Effect.printf "unknown message sent to daemon: obj"]) ∧
    Daemon.loopIter (fun _ _ => Except.ok ()) 0 ⟨[], []⟩
        (some (QItem.str "stop")) = (⟨[], []⟩, []) := by
  constructor
  · exact (daemon_unknown_and_plain_string_messages (fun _ _ => Except.ok ())
      0 ⟨[], []⟩ "obj" "stop").1
  · exact (daemon_unknown_and_plain_string_messages (fun _ _ => Except.ok ())
      0 ⟨[], []⟩ "obj" "stop").2 (by decide)

/-- C7: whatever item the worker dequeued and whatever exception was raised
while processing it (including exceptions raised by the lint callback), the
iteration catches it, keeps the state reached so far, appends the
plugin-prefixed error message and the full trace to the effects emitted so
far, and returns normally — `Daemon.loopIter` is a total function into
plain states, so no processing error propagates out of an iteration. -/
theorem daemon_loop_catches_exceptions (cb : Nat → ℚ → Except String Unit)
    (now : ℚ) (st : DaemonState) (item : Option QItem) (e : String)
    (st1 : DaemonState) (effs : List Effect)
    (h : Daemon.processItem cb now st item = Except.error (e, st1, effs)) :
    Daemon.loopIter cb now st item = (st1, effs ++ Daemon.errTrace e) := by
  simp [Daemon.loopIter, h]

/-- Witness for C7: a callback that raises `boom` while the scan fires the
pending entry for view `1` is caught; the iteration returns the partial
state and the effects followed by the four trace lines. -/
theorem daemon_loop_catches_exceptions_witness :
    Daemon.processItem (fun _ _ => Except.error "boom") 1 ⟨[(1, (0, 0))], []⟩
        none = Except.error ("boom", ⟨[], [(1, 1)]⟩, [Effect.lint 1 0]) ∧
    Daemon.loopIter (fun _ _ => Except.error "boom") 1 ⟨[(1, (0, 0))], []⟩
        none = (⟨[], [(1, 1)]⟩, [Effect.lint 1 0] ++ Daemon.errTrace "boom") := by
  have h : Daemon.processItem (fun _ _ => Except.error "boom") 1
      ⟨[(1, (0, 0))], []⟩ none =
      Except.error ("boom", ⟨[], [(1, 1)]⟩, [Effect.lint 1 0]) := by
    norm_num [Daemon.processItem, Daemon.timeoutScan, dictGet, dictSet, dictDel]
  exact ⟨h, daemon_loop_catches_exceptions (fun _ _ => Except.error "boom") 1
      ⟨[(1, (0, 0))], []⟩ none "boom" ⟨[], [(1, 1)]⟩ [Effect.lint 1 0] h⟩

namespace Daemon

/-- Monotonic clock assumption: `c0` bounds the first iteration's
`time.monotonic()` reading and each reading bounds the next. -/
def clocksMono (c0 : ℚ) (steps : List (ℚ × Option QItem)) : Prop :=
  List.Chain (fun a b => a ≤ b) c0 (steps.map Prod.fst)

/-- Every timestamp currently stored in the shared registry is at most
`c`. -/
def sharedBound (st : DaemonState) (c : ℚ) : Prop :=
  ∀ v t, dictGet v st.shared_last_runs = some t → t ≤ c

theorem timeoutScan_shared_cases (cb : Nat → ℚ → Except String Unit)
    (now : ℚ) (vid : Nat) :
    ∀ (entries : List (Nat × (ℚ × ℚ))) (st : DaemonState) (x : ℚ),
      dictGet vid (exState (timeoutScan cb now entries st)).shared_last_runs = some x →
      x = now ∨ dictGet vid st.shared_last_runs = some x := by
  intro entries
  induction entries with
  | nil =>
    intro st x h
    right
    simpa [timeoutScan, exState] using h
  | cons p rest ih =>
    obtain ⟨v1, ts1, d1⟩ := p
    intro st x h
    rw [timeoutScan] at h
    by_cases hfire : now > ts1 + d1
    · rw [if_pos hfire] at h
      cases hcb2 : cb v1 ts1 with
      | error e =>
        simp only [hcb2] at h
        simp only [exState] at h
        rcases dictGet_dictSet_cases h with ⟨_, hx⟩ | hold
        · exact Or.inl hx
        · exact Or.inr hold
      | ok u =>
        simp only [hcb2] at h
        cases hrec : timeoutScan cb now rest
            { local_last_runs := dictDel v1 st.local_last_runs,
              shared_last_runs := dictSet v1 now st.shared_last_runs } with
        | ok p2 =>
          obtain ⟨st2, effs⟩ := p2
          simp only [hrec, exState] at h
          have h2 : dictGet vid (exState (timeoutScan cb now rest
              { local_last_runs := dictDel v1 st.local_last_runs,
                shared_last_runs := dictSet v1 now st.shared_last_runs })).shared_last_runs = some x := by
            rw [hrec]
            simpa [exState] using h
          rcases ih _ x h2 with h3 | h4
          · exact Or.inl h3
          · simp only [] at h4
            rcases dictGet_dictSet_cases h4 with ⟨_, hx⟩ | hold
            · exact Or.inl hx
            · exact Or.inr hold
        | error p2 =>
          obtain ⟨e, st2, effs⟩ := p2
          simp only [hrec, exState] at h
          have h2 : dictGet vid (exState (timeoutScan cb now rest
              { local_last_runs := dictDel v1 st.local_last_runs,
                shared_last_runs := dictSet v1 now st.shared_last_runs })).shared_last_runs = some x := by
            rw [hrec]
            simpa [exState] using h
          rcases ih _ x h2 with h3 | h4
          · exact Or.inl h3
          · simp only [] at h4
            rcases dictGet_dictSet_cases h4 with ⟨_, hx⟩ | hold
            · exact Or.inl hx
            · exact Or.inr hold
    · rw [if_neg hfire] at h
      exact ih st x h

theorem loopIter_shared_cases (cb : Nat → ℚ → Except String Unit) (now : ℚ)
    (st : DaemonState) (item : Option QItem) (vid : Nat) (x : ℚ)
    (h : dictGet vid (loopIter cb now st item).1.shared_last_runs = some x) :
    x = now ∨ dictGet vid st.shared_last_runs = some x := by
  rw [loopIter_fst] at h
  cases item with
  | none => exact timeoutScan_shared_cases cb now vid st.local_last_runs st x h
  | some q =>
    cases q with
    | tup v1 ts d =>
      right
      revert h
      simp only [processItem]
      cases hg : dictGet v1 st.shared_last_runs with
      | none =>
        intro h
        simpa [exState] using h
      | some t0 =>
        by_cases hlt : ts < t0
        · intro h
          simpa [exState, hlt] using h
        · intro h
          simpa [exState, hlt] using h
    | num s =>
      right
      simpa [processItem, exState] using h
    | str s =>
      by_cases hs : s = "reload"
      · simp [processItem, hs, exState, dictGet] at h
      · right
        simpa [processItem, hs, exState] using h
    | unknown r =>
      right
      simpa [processItem, exState] using h

theorem loopIter_sharedBound (cb : Nat → ℚ → Except String Unit) (now : ℚ)
    (st : DaemonState) (item : Option QItem) (c : ℚ)
    (hb : sharedBound st c) (hc : c ≤ now) :
    sharedBound (loopIter cb now st item).1 now := by
  intro v t h
  rcases loopIter_shared_cases cb now st item v t h with rfl | hold
  · exact le_refl t
  · exact (hb v t hold).trans hc

theorem runSteps_lookup_ge (cb : Nat → ℚ → Except String Unit) (vid : Nat)
    (a : ℚ) :
    ∀ (steps : List (ℚ × Option QItem)) (st : DaemonState) (c : ℚ),
      clocksMono c steps → a ≤ c →
      (∀ x, dictGet vid st.shared_last_runs = some x → a ≤ x) →
      ∀ b, dictGet vid (runSteps cb steps st).1.shared_last_runs = some b → a ≤ b := by
  intro steps
  induction steps with
  | nil =>
    intro st c _ _ hst b hb
    simp only [runSteps] at hb
    exact hst b hb
  | cons p rest ih =>
    obtain ⟨now, item⟩ := p
    intro st c hchain hac hst b hb
    simp only [clocksMono, List.map_cons] at hchain
    have h1 : c ≤ now := (List.chain_cons.mp hchain).1
    have h2 : clocksMono now rest := (List.chain_cons.mp hchain).2
    have hst1 : ∀ x, dictGet vid (loopIter cb now st item).1.shared_last_runs = some x → a ≤ x := by
      intro x hx
      rcases loopIter_shared_cases cb now st item vid x hx with rfl | hold
      · exact hac.trans h1
      · exact hst x hold
    simp only [runSteps] at hb
    exact ih (loopIter cb now st item).1 now h2 (hac.trans h1) hst1 b hb

/-- The clock reading after the last of `steps` (or `c0` for no steps). -/
def endClock (c0 : ℚ) : List (ℚ × Option QItem) → ℚ
  | [] => c0
  | (c, _) :: rest => endClock c rest

theorem clocksMono_append (c0 : ℚ) (s1 : List (ℚ × Option QItem)) :
    ∀ (s2 : List (ℚ × Option QItem)), clocksMono c0 (s1 ++ s2) →
      clocksMono c0 s1 ∧ clocksMono (endClock c0 s1) s2 := by
  induction s1 generalizing c0 with
  | nil =>
    intro s2 h
    exact ⟨List.Chain.nil, h⟩
  | cons p rest ih =>
    obtain ⟨now, item⟩ := p
    intro s2 h
    simp only [clocksMono, List.cons_append, List.map_cons, List.chain_cons] at h
    obtain ⟨hle, hrest⟩ := h
    obtain ⟨m1, m2⟩ := ih now s2 hrest
    refine ⟨?_, ?_⟩
    · simp only [clocksMono, List.map_cons, List.chain_cons]
      exact ⟨hle, m1⟩
    · simpa [endClock] using m2

theorem runSteps_sharedBound (cb : Nat → ℚ → Except String Unit) :
    ∀ (steps : List (ℚ × Option QItem)) (st : DaemonState) (c0 : ℚ),
      sharedBound st c0 → clocksMono c0 steps →
      sharedBound (runSteps cb steps st).1 (endClock c0 steps) := by
  intro steps
  induction steps with
  | nil =>
    intro st c0 hb _
    simpa [runSteps, endClock] using hb
  | cons p rest ih =>
    obtain ⟨now, item⟩ := p
    intro st c0 hb hchain
    simp only [clocksMono, List.map_cons, List.chain_cons] at hchain
    have hb1 : sharedBound (loopIter cb now st item).1 now :=
      loopIter_sharedBound cb now st item c0 hb hchain.1
    have := ih (loopIter cb now st item).1 now hb1 hchain.2
    simpa [runSteps, endClock] using this

theorem runSteps_append (cb : Nat → ℚ → Except String Unit) :
    ∀ (s1 s2 : List (ℚ × Option QItem)) (st : DaemonState),
      runSteps cb (s1 ++ s2) st =
        ((runSteps cb s2 (runSteps cb s1 st).1).1,
         (runSteps cb s1 st).2 ++ (runSteps cb s2 (runSteps cb s1 st).1).2) := by
  intro s1
  induction s1 with
  | nil =>
    intro s2 st
    simp [runSteps]
  | cons p rest ih =>
    obtain ⟨now, item⟩ := p
    intro s2 st
    simp [runSteps, ih, List.append_assoc]

end Daemon

/-- C5: across any run of worker iterations whose monotonic clock readings
are non-decreasing and bound every timestamp already in the shared
registry, the registry value for each view never decreases: whenever the
registry holds `a` for a view after a prefix of the run and `b` for the
same view after the whole run, `a ≤ b` — every write replaces a value with
one at least as large. -/
theorem shared_registry_monotone (cb : Nat → ℚ → Except String Unit)
    (steps1 steps2 : List (ℚ × Option QItem)) (st : DaemonState) (c0 : ℚ)
    (vid : Nat) (a b : ℚ)
    (hchain : Daemon.clocksMono c0 (steps1 ++ steps2))
    (hbound : Daemon.sharedBound st c0)
    (ha : dictGet vid (Daemon.runSteps cb steps1 st).1.shared_last_runs = some a)
    (hb : dictGet vid (Daemon.runSteps cb (steps1 ++ steps2) st).1.shared_last_runs = some b) :
    a ≤ b := by
  obtain ⟨h1, h2⟩ := Daemon.clocksMono_append c0 steps1 steps2 hchain
  have hbnd1 : Daemon.sharedBound (Daemon.runSteps cb steps1 st).1
      (Daemon.endClock c0 steps1) :=
    Daemon.runSteps_sharedBound cb steps1 st c0 hbound h1
  have hac : a ≤ Daemon.endClock c0 steps1 := hbnd1 vid a ha
  have hst : ∀ x, dictGet vid (Daemon.runSteps cb steps1 st).1.shared_last_runs = some x → a ≤ x := by
    intro x hx
    exact le_of_eq (Option.some.inj (ha.symm.trans hx))
  rw [Daemon.runSteps_append] at hb
  exact Daemon.runSteps_lookup_ge cb vid a steps2 (Daemon.runSteps cb steps1 st).1
    (Daemon.endClock c0 steps1) h2 hac hst b hb

/-- Witness for C5: starting with a pending entry for view `1`, a scan at
time `1` stores `1` in the registry; a later accepted hit and a scan at
time `2` overwrite it with `2`, and the theorem yields `1 ≤ 2`. -/
theorem shared_registry_monotone_witness :
    Daemon.clocksMono 0 ([((1 : ℚ), none)] ++
      [((3/2 : ℚ), some (QItem.tup 1 (5/4) 0)), ((2 : ℚ), none)]) ∧
    dictGet 1 (Daemon.runSteps (fun _ _ => Except.ok ()) [((1 : ℚ), none)]
        ⟨[(1, (0, 1/10))], []⟩).1.shared_last_runs = some 1 ∧
    dictGet 1 (Daemon.runSteps (fun _ _ => Except.ok ()) ([((1 : ℚ), none)] ++
        [((3/2 : ℚ), some (QItem.tup 1 (5/4) 0)), ((2 : ℚ), none)])
        ⟨[(1, (0, 1/10))], []⟩).1.shared_last_runs = some 2 ∧
    (1 : ℚ) ≤ 2 := by
  have hchain : Daemon.clocksMono 0 ([((1 : ℚ), none)] ++
      [((3/2 : ℚ), some (QItem.tup 1 (5/4) 0)), ((2 : ℚ), none)]) := by
    norm_num [Daemon.clocksMono, List.chain_cons]
  have ha : dictGet 1 (Daemon.runSteps (fun _ _ => Except.ok ()) [((1 : ℚ), none)]
      ⟨[(1, (0, 1/10))], []⟩).1.shared_last_runs = some 1 := by
    norm_num [Daemon.runSteps, Daemon.loopIter, Daemon.processItem,
      Daemon.timeoutScan, dictGet, dictSet, dictDel]
  have hb : dictGet 1 (Daemon.runSteps (fun _ _ => Except.ok ()) ([((1 : ℚ), none)] ++
      [((3/2 : ℚ), some (QItem.tup 1 (5/4) 0)), ((2 : ℚ), none)])
      ⟨[(1, (0, 1/10))], []⟩).1.shared_last_runs = some 2 := by
    norm_num [Daemon.runSteps, Daemon.loopIter, Daemon.processItem,
      Daemon.timeoutScan, dictGet, dictSet, dictDel]
  exact ⟨hchain, ha, hb, shared_registry_monotone (fun _ _ => Except.ok ())
    [((1 : ℚ), none)] [((3/2 : ℚ), some (QItem.tup 1 (5/4) 0)), ((2 : ℚ), none)]
    ⟨[(1, (0, 1/10))], []⟩ 0 1 1 2 hchain
    (fun v t h => by simp [dictGet] at h) ha hb⟩

namespace Daemon

/-- A run of idle-timeout iterations (queue `Empty`) at the given clock
readings. -/
def scanSteps : List ℚ → List (ℚ × Option QItem)
  | [] => []
  | c :: cs => (c, none) :: scanSteps cs

/-- A burst tail: for each segment, some idle-timeout scans followed by the
dequeue of the next hit `(vid, t, d)` for the same view. -/
def burstSteps (vid : Nat) (d : ℚ) : List (List ℚ × ℚ) → List (ℚ × Option QItem)
  | [] => []
  | (scans, t) :: rest =>
      scanSteps scans ++ ((t, some (QItem.tup vid t d)) :: burstSteps vid d rest)

/-- Timestamp of the last hit of the burst. -/
def lastHit (t0 : ℚ) : List (List ℚ × ℚ) → ℚ
  | [] => t0
  | (_, t) :: rest => lastHit t rest

/-- The burst hypothesis: every hit follows the previous one within less
than the delay `d`, and the scans between two hits all happen no later
than the pending deadline (the previous hit's timestamp plus `d`), i.e.
each request is dequeued before its debounce window elapses. -/
def burstOk (d : ℚ) : ℚ → List (List ℚ × ℚ) → Prop
  | _, [] => True
  | tprev, (scans, t) :: rest =>
      (∀ c ∈ scans, c ≤ tprev + d) ∧ tprev < t ∧ t < tprev + d ∧ burstOk d t rest

theorem runSteps_cons_of {cb : Nat → ℚ → Except String Unit} {c : ℚ}
    {st st1 : DaemonState} {i : Option QItem} {effs : List Effect}
    {rest : List (ℚ × Option QItem)}
    (h : loopIter cb c st i = (st1, effs)) :
    runSteps cb ((c, i) :: rest) st =
      ((runSteps cb rest st1).1, effs ++ (runSteps cb rest st1).2) := by
  simp [runSteps, h]

theorem runSteps_append_of {cb : Nat → ℚ → Except String Unit}
    {s1 s2 : List (ℚ × Option QItem)} {st st1 : DaemonState} {e1 : List Effect}
    (h : runSteps cb s1 st = (st1, e1)) :
    runSteps cb (s1 ++ s2) st =
      ((runSteps cb s2 st1).1, e1 ++ (runSteps cb s2 st1).2) := by
  rw [runSteps_append, h]

theorem scanSteps_empty_local (cb : Nat → ℚ → Except String Unit)
    (sh : List (Nat × ℚ)) :
    ∀ cs : List ℚ, runSteps cb (scanSteps cs) ⟨[], sh⟩ = (⟨[], sh⟩, []) := by
  intro cs
  induction cs with
  | nil => simp [scanSteps, runSteps]
  | cons c cs ih =>
    have hstep : loopIter cb c ⟨[], sh⟩ none = (⟨[], sh⟩, []) := rfl
    rw [scanSteps, runSteps_cons_of hstep, ih]
    rfl

theorem scanSteps_quiet (cb : Nat → ℚ → Except String Unit) (vid : Nat)
    (t d : ℚ) (sh : List (Nat × ℚ)) :
    ∀ cs : List ℚ, (∀ c ∈ cs, c ≤ t + d) →
      runSteps cb (scanSteps cs) ⟨[(vid, (t, d))], sh⟩ =
        (⟨[(vid, (t, d))], sh⟩, []) := by
  intro cs
  induction cs with
  | nil =>
    intro _
    simp [scanSteps, runSteps]
  | cons c cs ih =>
    intro hall
    have hc : ¬ (t + d < c) := not_lt.mpr (hall c (List.mem_cons_self c cs))
    have hstep : loopIter cb c ⟨[(vid, (t, d))], sh⟩ none =
        (⟨[(vid, (t, d))], sh⟩, []) := by
      simp [loopIter, processItem, timeoutScan, hc]
    rw [scanSteps, runSteps_cons_of hstep,
        ih (fun x hx => hall x (List.mem_cons_of_mem c hx))]
    rfl

theorem hit_accepted (cb : Nat → ℚ → Except String Unit) (c : ℚ) (vid : Nat)
    (t d : ℚ) (loc : List (Nat × (ℚ × ℚ))) :
    loopIter cb c ⟨loc, []⟩ (some (QItem.tup vid t d)) =
      (⟨dictSet vid (t, d) loc, []⟩, []) := rfl

theorem burst_keeps_single_pending (cb : Nat → ℚ → Except String Unit)
    (vid : Nat) (d : ℚ) :
    ∀ (segs : List (List ℚ × ℚ)) (t0 : ℚ), burstOk d t0 segs →
      runSteps cb (burstSteps vid d segs) ⟨[(vid, (t0, d))], []⟩ =
        (⟨[(vid, (lastHit t0 segs, d))], []⟩, []) := by
  intro segs
  induction segs with
  | nil =>
    intro t0 _
    simp [burstSteps, runSteps, lastHit]
  | cons p rest ih =>
    obtain ⟨scans, t⟩ := p
    intro t0 hok
    rw [burstOk] at hok
    obtain ⟨hs, hlt, hspace, hrest⟩ := hok
    rw [burstSteps, runSteps_append_of (scanSteps_quiet cb vid t0 d [] scans hs)]
    have hset : dictSet vid (t, d) [(vid, (t0, d))] = [(vid, (t, d))] := by
      simp [dictSet]
    have hstep : loopIter cb t ⟨[(vid, (t0, d))], []⟩
        (some (QItem.tup vid t d)) = (⟨[(vid, (t, d))], []⟩, []) := by
      rw [hit_accepted cb t vid t d [(vid, (t0, d))], hset]
    rw [runSteps_cons_of hstep, ih t hrest]
    simp [lastHit]

theorem scan_fires_single_pending (cb : Nat → ℚ → Except String Unit)
    (vid : Nat) (t d T : ℚ) (hcb : ∀ v u, cb v u = Except.ok ())
    (hT : t + d < T) :
    loopIter cb T ⟨[(vid, (t, d))], []⟩ none =
      (⟨[], [(vid, T)]⟩, [Effect.lint vid t]) := by
  simp [loopIter, processItem, timeoutScan, hT, hcb vid t, dictDel, dictSet]

end Daemon

/-- C8: a view receiving a burst of hits — a first hit at `t1` followed by
further hits each strictly later but less than the delay `d` after the
previous one, with all in-between idle scans happening before the pending
deadline — produces exactly one lint-callback invocation for the whole
burst, carrying the timestamp of the last hit; it fires at the first scan
whose clock `T` exceeds `lastHit + d` (the scans `fin` before it being no
later than `lastHit + d`), i.e. approximately `d` after the last hit, and
later scans `post` fire nothing further. -/
theorem debounce_burst_single_fire (cb : Nat → ℚ → Except String Unit)
    (vid : Nat) (d t1 T : ℚ) (pre0 fin post : List ℚ)
    (segs : List (List ℚ × ℚ))
    (hcb : ∀ v t, cb v t = Except.ok ())
    (hburst : Daemon.burstOk d t1 segs)
    (hfin : ∀ c ∈ fin, c ≤ Daemon.lastHit t1 segs + d)
    (hT : Daemon.lastHit t1 segs + d < T) :
    Daemon.runSteps cb
      (Daemon.scanSteps pre0 ++ (t1, some (QItem.tup vid t1 d)) ::
        (Daemon.burstSteps vid d segs ++ Daemon.scanSteps fin ++
          (T, none) :: Daemon.scanSteps post))
      ⟨[], []⟩ =
    (⟨[], [(vid, T)]⟩, [Effect.lint vid (Daemon.lastHit t1 segs)]) := by
  rw [Daemon.runSteps_append_of (Daemon.scanSteps_empty_local cb [] pre0)]
  have hstep1 : Daemon.loopIter cb t1 ⟨[], []⟩ (some (QItem.tup vid t1 d)) =
      (⟨[(vid, (t1, d))], []⟩, []) :=
    Daemon.hit_accepted cb t1 vid t1 d []
  have hbf : Daemon.runSteps cb
      (Daemon.burstSteps vid d segs ++ Daemon.scanSteps fin)
      ⟨[(vid, (t1, d))], []⟩ =
      (⟨[(vid, (Daemon.lastHit t1 segs, d))], []⟩, []) := by
    rw [Daemon.runSteps_append_of
          (Daemon.burst_keeps_single_pending cb vid d segs t1 hburst),
        Daemon.scanSteps_quiet cb vid (Daemon.lastHit t1 segs) d [] fin hfin]
    rfl
  rw [Daemon.runSteps_cons_of hstep1, Daemon.runSteps_append_of hbf,
      Daemon.runSteps_cons_of (Daemon.scan_fires_single_pending cb vid
        (Daemon.lastHit t1 segs) d T hcb hT),
      Daemon.scanSteps_empty_local cb [(vid, T)] post]
  simp

/-- Witness for C8, the spec's concrete scenario scaled to exact rationals:
view `1` hit at `t = 0` and again at `t = 1/10` with delay `3/10`; scans at
`1/20`, `1/5` and `2/5` are early, the scan at `41/100` fires exactly one
callback `(1, 1/10)`, and a scan at `1/2` fires nothing further. -/
theorem debounce_burst_single_fire_witness :
    Daemon.runSteps (fun _ _ => Except.ok ())
      (Daemon.scanSteps [] ++ ((0 : ℚ), some (QItem.tup 1 0 (3/10))) ::
        (Daemon.burstSteps 1 (3/10) [([1/20], 1/10)] ++ Daemon.scanSteps [1/5, 2/5] ++
          ((41/100 : ℚ), none) :: Daemon.scanSteps [1/2]))
      ⟨[], []⟩ =
    (⟨[], [(1, 41/100)]⟩, [Effect.lint 1 (1/10)]) := by
  have h := debounce_burst_single_fire (fun _ _ => Except.ok ()) 1 (3/10) 0 (41/100)
      [] [1/5, 2/5] [1/2] [([1/20], 1/10)] (fun _ _ => rfl)
      (by
        rw [Daemon.burstOk]
        refine ⟨?_, by norm_num, by norm_num, trivial⟩
        intro c hc
        simp at hc
        rw [hc]
        norm_num)
      (by
        intro c hc
        simp [Daemon.lastHit] at hc ⊢
        rcases hc with rfl | rfl <;> norm_num)
      (by norm_num [Daemon.lastHit])
  simpa [Daemon.lastHit] using h

/-!
## Process-wide per-view mappings

The module-level dictionaries `errors`, `highlights`, `linters` and
`views`, keyed by view id; their value types are opaque to
`view_did_close`.
-/

/-- The four module-level per-view dictionaries. -/
structure GlobalStore (E H L V : Type _) where
  errors : List (Nat × E)
  highlights : List (Nat × H)
  linters : List (Nat × L)
  views : List (Nat × V)

/-- Function `view_did_close(vid)`: remove all references to the view id from the
four dictionaries.  The source guards each `del` with `if vid in ...`;
`dictDel` is the identity on an absent key, so the guard is implicit. -/
def view_did_close {E H L V : Type _} (vid : Nat) (g : GlobalStore E H L V) :
    GlobalStore E H L V :=
  { errors := dictDel vid g.errors,
    highlights := dictDel vid g.highlights,
    linters := dictDel vid g.linters,
    views := dictDel vid g.views }

/-- C9: `view_did_close(vid)` removes the entries of `vid` from all four
per-view dictionaries (subsequent lookups report absent), leaves every
entry of every other view id in all four dictionaries unchanged, and is a
no-op — raising no error — when the view id has no entries. -/
theorem view_did_close_purges_and_frames {E H L V : Type _}
    (g : GlobalStore E H L V) (vid : Nat) :
    (dictGet vid (view_did_close vid g).errors = none ∧
     dictGet vid (view_did_close vid g).highlights = none ∧
     dictGet vid (view_did_close vid g).linters = none ∧
     dictGet vid (view_did_close vid g).views = none) ∧
    (∀ w, w ≠ vid →
      dictGet w (view_did_close vid g).errors = dictGet w g.errors ∧
      dictGet w (view_did_close vid g).highlights = dictGet w g.highlights ∧
      dictGet w (view_did_close vid g).linters = dictGet w g.linters ∧
      dictGet w (view_did_close vid g).views = dictGet w g.views) ∧
    (dictGet vid g.errors = none → dictGet vid g.highlights = none →
      dictGet vid g.linters = none → dictGet vid g.views = none →
      view_did_close vid g = g) := by
  refine ⟨⟨?_, ?_, ?_, ?_⟩, ?_, ?_⟩
  · exact dictGet_dictDel_self vid g.errors
  · exact dictGet_dictDel_self vid g.highlights
  · exact dictGet_dictDel_self vid g.linters
  · exact dictGet_dictDel_self vid g.views
  · intro w hw
    exact ⟨dictGet_dictDel_ne hw g.errors, dictGet_dictDel_ne hw g.highlights,
      dictGet_dictDel_ne hw g.linters, dictGet_dictDel_ne hw g.views⟩
  · intro h1 h2 h3 h4
    obtain ⟨ge, gh, gl, gv⟩ := g
    simp only [view_did_close]
    rw [dictDel_of_absent h1, dictDel_of_absent h2,
        dictDel_of_absent h3, dictDel_of_absent h4]

/-- Witness for C9: closing view `1` purges its entries, keeps view `2`'s
entry readable, and closing a view with no entries returns the store
unchanged. -/
theorem view_did_close_purges_and_frames_witness :
    dictGet 1 (view_did_close 1
      (⟨[(1, 10), (2, 20)], [(1, 11)], [(1, 12)], [(2, 13)]⟩ :
        GlobalStore Nat Nat Nat Nat)).errors = none ∧
    dictGet 2 (view_did_close 1
      (⟨[(1, 10), (2, 20)], [(1, 11)], [(1, 12)], [(2, 13)]⟩ :
        GlobalStore Nat Nat Nat Nat)).errors = some 20 ∧
    view_did_close 1 (⟨[(2, 20)], [], [], [(2, 13)]⟩ :
      GlobalStore Nat Nat Nat Nat) = ⟨[(2, 20)], [], [], [(2, 13)]⟩ := by
  refine ⟨?_, ?_, ?_⟩
  · exact (view_did_close_purges_and_frames
      (⟨[(1, 10), (2, 20)], [(1, 11)], [(1, 12)], [(2, 13)]⟩ :
        GlobalStore Nat Nat Nat Nat) 1).1.1
  · have h := ((view_did_close_purges_and_frames
      (⟨[(1, 10), (2, 20)], [(1, 11)], [(1, 12)], [(2, 13)]⟩ :
        GlobalStore Nat Nat Nat Nat) 1).2.1 2 (by decide)).1
    rw [h]
    rfl
  · exact (view_did_close_purges_and_frames
      (⟨[(2, 20)], [], [], [(2, 13)]⟩ : GlobalStore Nat Nat Nat Nat) 1).2.2
      rfl rfl rfl rfl

/-!
## get_syntax and SYNTAX_RE

`SYNTAX_RE = re.compile(r'/([^/]+)\.tmLanguage$')` and `get_syntax(view)`.
Strings are modelled as character lists.  `SYNTAX_RE.search` succeeds
exactly when the string ends in `.tmLanguage` preceded by `/` and a
non-empty group of non-`/` characters; the group is the segment between
the last `/` and the suffix.  Lowercasing is ASCII (`Char.toLower`),
matching `str.lower` on the ASCII syntax names involved.
-/

/-- The characters of the literal suffix `.tmLanguage`. -/
def tmSuffix : List Char := ".tmLanguage".toList

/-- Strip a given leading sequence: `dropPre p l = some r` iff
`l = p ++ r`. -/
def dropPre : List Char → List Char → Option (List Char)
  | [], l => some l
  | _ :: _, [] => none
  | p :: ps, c :: cs => if c = p then dropPre ps cs else none

theorem dropPre_eq_some : ∀ (p l r : List Char), dropPre p l = some r ↔ l = p ++ r := by
  intro p
  induction p with
  | nil =>
    intro l r
    simp [dropPre]
  | cons pc ps ih =>
    intro l r
    cases l with
    | nil => simp [dropPre]
    | cons c cs =>
      by_cases hc : c = pc
      · simp [dropPre, hc, ih]
      · simp [dropPre, hc]

/-- The anchored-suffix part of `SYNTAX_RE.search`: remove the trailing
`.tmLanguage` if present. -/
def stripTm (l : List Char) : Option (List Char) :=
  (dropPre tmSuffix.reverse l.reverse).map List.reverse

theorem stripTm_eq_some (l c : List Char) :
    stripTm l = some c ↔ l = c ++ tmSuffix := by
  unfold stripTm
  constructor
  · intro h
    obtain ⟨r, hr, hc⟩ := Option.map_eq_some'.mp h
    have hrev : l.reverse = tmSuffix.reverse ++ r := (dropPre_eq_some _ _ _).mp hr
    calc l = l.reverse.reverse := (List.reverse_reverse l).symm
    _ = (tmSuffix.reverse ++ r).reverse := by rw [hrev]
    _ = r.reverse ++ tmSuffix.reverse.reverse := by rw [List.reverse_append]
    _ = c ++ tmSuffix := by rw [List.reverse_reverse, hc]
  · intro h
    have hdrop : dropPre tmSuffix.reverse l.reverse = some c.reverse := by
      rw [h, List.reverse_append]
      exact (dropPre_eq_some _ _ _).mpr rfl
    simp [hdrop, List.reverse_reverse]

/-- Split at the last `/`: `splitLastSlash l = some (p, a)` iff
`l = p ++ '/' :: a` with no `/` in `a`. -/
def splitLastSlash : List Char → Option (List Char × List Char)
  | [] => none
  | c :: cs =>
      match splitLastSlash cs with
      | some (p, a) => some (c :: p, a)
      | none => if c = '/' then some ([], cs) else none

theorem not_mem_of_splitLastSlash_none :
    ∀ l : List Char, splitLastSlash l = none → '/' ∉ l := by
  intro l
  induction l with
  | nil =>
    intro _ h
    simp at h
  | cons c cs ih =>
    intro h
    cases hcs : splitLastSlash cs with
    | some p =>
      obtain ⟨p1, a1⟩ := p
      rw [splitLastSlash, hcs] at h
      exact absurd h (by simp)
    | none =>
      rw [splitLastSlash, hcs] at h
      by_cases hc : c = '/'
      · rw [if_pos hc] at h
        exact absurd h (by simp)
      · intro hmem
        rcases List.mem_cons.mp hmem with h1 | h2
        · exact hc h1.symm
        · exact ih hcs h2

theorem splitLastSlash_none_of_not_mem :
    ∀ l : List Char, '/' ∉ l → splitLastSlash l = none := by
  intro l
  induction l with
  | nil =>
    intro _
    rfl
  | cons c cs ih =>
    intro h
    have hc : ¬ c = '/' := fun hh => h (by rw [hh]; exact List.mem_cons_self _ _)
    have hcs : '/' ∉ cs := fun hh => h (List.mem_cons_of_mem c hh)
    rw [splitLastSlash, ih hcs, if_neg hc]

theorem splitLastSlash_some :
    ∀ (l p a : List Char), splitLastSlash l = some (p, a) →
      l = p ++ '/' :: a ∧ '/' ∉ a := by
  intro l
  induction l with
  | nil =>
    intro p a h
    simp [splitLastSlash] at h
  | cons c cs ih =>
    intro p a h
    cases hcs : splitLastSlash cs with
    | some q =>
      obtain ⟨p1, a1⟩ := q
      rw [splitLastSlash, hcs] at h
      simp only [Option.some.injEq, Prod.mk.injEq] at h
      obtain ⟨hp, ha⟩ := h
      obtain ⟨hdec, hmem⟩ := ih p1 a1 hcs
      subst hp
      subst ha
      exact ⟨by rw [hdec]; simp, hmem⟩
    | none =>
      rw [splitLastSlash, hcs] at h
      by_cases hc : c = '/'
      · rw [if_pos hc] at h
        simp only [Option.some.injEq, Prod.mk.injEq] at h
        obtain ⟨hp, ha⟩ := h
        subst hp
        subst ha
        subst hc
        exact ⟨by simp, not_mem_of_splitLastSlash_none cs hcs⟩
      · rw [if_neg hc] at h
        exact absurd h (by simp)

theorem splitLastSlash_append (a : List Char) (ha : '/' ∉ a) :
    ∀ p : List Char, splitLastSlash (p ++ '/' :: a) = some (p, a) := by
  intro p
  induction p with
  | nil =>
    rw [List.nil_append, splitLastSlash, splitLastSlash_none_of_not_mem a ha]
    simp
  | cons c p1 ih =>
    rw [List.cons_append, splitLastSlash, ih]

/-- Python `str.lower()` on ASCII. -/
def toLowerList (l : List Char) : List Char := l.map Char.toLower

/-- Function `get_syntax(view)` from `persist.py`: `view_syntax` is the view's
`'syntax'` setting (empty when unset), `sm` is the
`settings.get('syntax_map', \x7b\x7d)` dictionary.  If the setting is
non-empty and `SYNTAX_RE.search` matches, the group is lowercased and
looked up in the map (default `''`, lowercased); the result is
`mapped_syntax or view_syntax`. -/
def getSyntaxOf (sm : List (List Char × List Char)) (vs : List Char) : List Char :=
  if vs = [] then []
  else
    match stripTm vs with
    | some core =>
        (match splitLastSlash core with
         | some (_, name) =>
            if name = [] then []
            else
              let base := toLowerList name
              let mapped := toLowerList ((dictGet base sm).getD [])
              if mapped = [] then base else mapped
         | none => [])
    | none => []

/-- C10: if the view's `'syntax'` setting is empty or does not decompose as
`pre ++ "/" ++ name ++ ".tmLanguage"` with a non-empty, slash-free `name`
(the `SYNTAX_RE` pattern anchored at the end), `get_syntax` returns the
empty string; if it does, the result is the lowercased `syntax_map`
translation of the lowercased base name when that translation is present
and non-empty, and the lowercased base name otherwise. -/
theorem getSyntaxOf_spec (sm : List (List Char × List Char)) (vs : List Char) :
    ((¬ ∃ pre name, vs = pre ++ '/' :: (name ++ tmSuffix) ∧
        name ≠ [] ∧ '/' ∉ name) → getSyntaxOf sm vs = []) ∧
    (∀ pre name, vs = pre ++ '/' :: (name ++ tmSuffix) → name ≠ [] →
      '/' ∉ name →
      getSyntaxOf sm vs =
        (if toLowerList ((dictGet (toLowerList name) sm).getD []) = []
         then toLowerList name
         else toLowerList ((dictGet (toLowerList name) sm).getD []))) := by
  constructor
  · intro hno
    by_cases hvs : vs = []
    · simp [getSyntaxOf, hvs]
    · cases hstrip : stripTm vs with
      | none => simp [getSyntaxOf, hvs, hstrip]
      | some core =>
        cases hsplit : splitLastSlash core with
        | none => simp [getSyntaxOf, hvs, hstrip, hsplit]
        | some q =>
          obtain ⟨p, name⟩ := q
          by_cases hne : name = []
          · simp [getSyntaxOf, hvs, hstrip, hsplit, hne]
          · exfalso
            apply hno
            have hcore : vs = core ++ tmSuffix := (stripTm_eq_some _ _).mp hstrip
            obtain ⟨hdec, hslash⟩ := splitLastSlash_some core p name hsplit
            refine ⟨p, name, ?_, hne, hslash⟩
            rw [hcore, hdec]
            simp
  · intro pre name hdec hne hslash
    have hvs2 : vs = (pre ++ '/' :: name) ++ tmSuffix := by
      rw [hdec]
      simp
    have hstrip : stripTm vs = some (pre ++ '/' :: name) :=
      (stripTm_eq_some _ _).mpr hvs2
    have hsplit : splitLastSlash (pre ++ '/' :: name) = some (pre, name) :=
      splitLastSlash_append name hslash pre
    have hvsne : ¬ vs = [] := by
      rw [hdec]
      simp
    simp [getSyntaxOf, hvsne, hstrip, hsplit, hne]

/-- Witness for C10: `Packages/Python/Python.tmLanguage` with the map
sending `python` to `Python3` yields `python3`. -/
theorem getSyntaxOf_spec_witness :
    ("Packages/Python/Python.tmLanguage".toList =
      "Packages/Python".toList ++ '/' :: ("Python".toList ++ tmSuffix)) ∧
    "Python".toList ≠ [] ∧ '/' ∉ "Python".toList ∧
    getSyntaxOf [("python".toList, "Python3".toList)]
      "Packages/Python/Python.tmLanguage".toList = "python3".toList := by
  refine ⟨by decide, by decide, by decide, ?_⟩
  rw [(getSyntaxOf_spec [("python".toList, "Python3".toList)]
        "Packages/Python/Python.tmLanguage".toList).2
      "Packages/Python".toList "Python".toList (by decide) (by decide) (by decide)]
  decide
